import Mathlib

/-!
# Verification of a chained hash map (src/src/lib.rs)

Shallow embedding of the Rust `HashMap<K, V>` from `src/src/lib.rs`:
a vector of buckets (each a vector of `(key, value)` pairs), an `items`
counter, chained collision resolution, doubling resize at load factor 3/4,
an entry API, and a bucket-order iterator.

Modelling conventions:
* `Vec<Vec<(K, V)>>` becomes `List (List (K × V))`; `usize` becomes `Nat`.
* The `DefaultHasher` digest (`hasher.finish()`, a `u64`) is a parameter
  `hash : K → Nat`; the code only ever uses it modulo the bucket count.
* Rust panics (remainder by zero when the bucket array is empty, and
  out-of-range indexing) are modelled by `Option`: `none` is a fault.
  `insert`/`entry` call `resize` first, which makes the bucket array
  non-empty, so their indexing is total (see `resize_length_pos`).
* The borrowed-key parameter `Q` of `get`/`contains_key`/`remove` is
  instantiated with the owned key type `K` (identity `Borrow`).
-/

set_option linter.unusedVariables false
set_option linter.unusedSectionVars false

namespace LearnHashMap

/-- Source: `const INITIAL_NBUCKETS: usize = 1;` -/
def INITIAL_NBUCKETS : Nat := 1

/-- Source: `pub struct HashMap<K, V> { buckets: Vec<Vec<(K, V)>>, items: usize }`. -/
structure HashMap (K V : Type) where
  buckets : List (List (K × V))
  items : Nat
deriving DecidableEq

variable {K V : Type} [DecidableEq K]

/-- Source: `HashMap::new` — empty bucket array, zero items. -/
def HashMap.new : HashMap K V :=
  { buckets := [], items := 0 }

/-- Body of the rehash loop in `HashMap::resize`: `new_buckets[bucket].push((key, value))`
with `bucket = hash % new_buckets.len()`; this helper pushes pair `e` onto bucket `i`. -/
def pushPair (bs : List (List (K × V))) (i : Nat) (e : K × V) : List (List (K × V)) :=
  bs.set i (bs.getD i [] ++ [e])

/-- One iteration of the rehash loop: route pair `e` to `hash(key) % new_buckets.len()`. -/
def rehashStep (hash : K → Nat) (bs : List (List (K × V))) (e : K × V) : List (List (K × V)) :=
  pushPair bs (hash e.1 % bs.length) e

/-- Source: `HashMap::resize`. Target size is `INITIAL_NBUCKETS` when the bucket
array is empty, otherwise twice the current bucket count; every stored pair is
drained in bucket order and pushed onto bucket `hash(key) % new_buckets.len()`
of the new array. `items` is untouched. -/
def HashMap.resize (hash : K → Nat) (m : HashMap K V) : HashMap K V :=
  { buckets :=
      m.buckets.flatten.foldl (rehashStep hash)
        (List.replicate
          (match m.buckets.length with
           | 0 => INITIAL_NBUCKETS
           | n => 2 * n) []),
    items := m.items }

/-- The shared precheck of `HashMap::insert` and `HashMap::entry`:
`if self.buckets.is_empty() || self.items > 3 * self.buckets.len() / 4 { self.resize(); }`. -/
def preResize (hash : K → Nat) (m : HashMap K V) : HashMap K V :=
  if m.buckets.isEmpty ∨ m.items > 3 * m.buckets.length / 4 then m.resize hash else m

/-- Source: `HashMap::bucket` — `(hasher.finish() % self.buckets.len() as u64) as usize`.
In Rust `x % 0` panics ("remainder with a divisor of zero"); that fault is `none`. -/
def HashMap.bucket (hash : K → Nat) (m : HashMap K V) (key : K) : Option Nat :=
  if m.buckets.length = 0 then none
  else some (hash key % m.buckets.length)

/-- The scan loop of `HashMap::insert`: walk the chain; on the first entry whose key
equals `key`, `mem::replace` the stored value and return the previous one together
with the updated chain; `none` when no entry matches. -/
def replaceInChain (key : K) (value : V) : List (K × V) → Option (V × List (K × V))
  | [] => none
  | e :: rest =>
    if e.1 = key then some (e.2, (e.1, value) :: rest)
    else (replaceInChain key value rest).map (fun r => (r.1, e :: r.2))

/-- The part of `HashMap::insert` after the resize precheck, on the (already
resized) map `m1`: address bucket `hash(key) % len`, bump `items`, scan and
replace, or append. Faithful to the source, `self.items += 1` happens BEFORE
the scan, so the counter also grows when the scan merely replaces an existing
value. The bucket index is always in range because `resize` ran first
(`preResize_length_pos`), so `getD`/`set` coincide with Rust's panicking index. -/
def insertPost (hash : K → Nat) (m1 : HashMap K V) (key : K) (value : V) :
    Option V × HashMap K V :=
  match replaceInChain key value (m1.buckets.getD (hash key % m1.buckets.length) []) with
  | some r =>
    (some r.1, { buckets := m1.buckets.set (hash key % m1.buckets.length) r.2,
                 items := m1.items + 1 })
  | none =>
    (none, { buckets := pushPair m1.buckets (hash key % m1.buckets.length) (key, value),
             items := m1.items + 1 })

/-- Source: `HashMap::insert` — resize precheck, then scan-and-replace or append. -/
def HashMap.insert (hash : K → Nat) (m : HashMap K V) (key : K) (value : V) :
    Option V × HashMap K V :=
  insertPost hash (preResize hash m) key value

/-- Source: `HashMap::get` — address the bucket, linearly scan for an equal key,
return a reference to the value. Outer `Option` is the fault layer of
`HashMap.bucket` and of the `self.buckets[bucket]` indexing; the inner
`Option` is the `Option<&V>` result. -/
def HashMap.get (hash : K → Nat) (m : HashMap K V) (key : K) : Option (Option V) :=
  (m.bucket hash key).bind fun b =>
    (m.buckets[b]?).map fun chain =>
      (chain.find? (fun e => decide (e.1 = key))).map Prod.snd

/-- Source: `HashMap::contains_key` — `self.get(key).is_some()`. -/
def HashMap.contains_key (hash : K → Nat) (m : HashMap K V) (key : K) : Option Bool :=
  (m.get hash key).map Option.isSome

/-- `Iterator::position` over a chain: index of the first element satisfying `p`. -/
def position {α : Type} (p : α → Bool) : List α → Option Nat
  | [] => none
  | e :: rest => if p e then some 0 else (position p rest).map (· + 1)

/-- `Vec::swap_remove(i)`: overwrite slot `i` with the last element, then drop the
last slot. Only called with `i` in range on a non-empty vector. -/
def swapRemove {α : Type} (l : List α) (i : Nat) : List α :=
  match l.getLast? with
  | none => []
  | some a => (l.set i a).dropLast

/-- Source: `HashMap::remove` — address the bucket, find the position of the
matching entry (`?` early-returns `None` leaving the map untouched), then
`swap_remove` it and decrement `items`. Outer `Option` is the fault layer. -/
def HashMap.remove (hash : K → Nat) (m : HashMap K V) (key : K) :
    Option (Option V × HashMap K V) :=
  (m.bucket hash key).bind fun b =>
    (m.buckets[b]?).bind fun chain =>
      match position (fun e => decide (e.1 = key)) chain with
      | none => some (none, m)
      | some i =>
        (chain[i]?).map fun e =>
          (some e.2, { buckets := m.buckets.set b (swapRemove chain i), items := m.items - 1 })

/-- Source: `HashMap::len` — returns `self.items`. -/
def HashMap.len (m : HashMap K V) : Nat :=
  m.items

/-- Source: `HashMap::is_empty` — `self.items == 0`. -/
def HashMap.is_empty (m : HashMap K V) : Bool :=
  m.items == 0

/-- Source: `enum Entry` with `OccupiedEntry { entry: &mut (K, V) }` and
`VacantEntry { key, map, bucket }`. The occupied reference is modelled by the
referent pair; the vacant entry's `map` field travels alongside the `Entry`
(see `HashMap.entry`, which returns the borrowed map next to the view). -/
inductive Entry (K V : Type) where
  | occupied (pair : K × V)
  | vacant (key : K) (bucket : Nat)
deriving DecidableEq

/-- The part of `HashMap::entry` after the resize precheck: scan the target
bucket; a matching pair yields `Occupied` (a reference to that pair), otherwise
`Vacant` captures the key and the bucket index. -/
def entryPost (hash : K → Nat) (m1 : HashMap K V) (key : K) : HashMap K V × Entry K V :=
  match (m1.buckets.getD (hash key % m1.buckets.length) []).find?
      (fun e => decide (e.1 = key)) with
  | some e => (m1, Entry.occupied e)
  | none => (m1, Entry.vacant key (hash key % m1.buckets.length))

/-- Source: `HashMap::entry`. Same resize precheck as `insert`, then the bucket
scan. The (possibly resized) map is returned alongside the view, standing for
the `&mut self` borrow held by the `Entry`. -/
def HashMap.entry (hash : K → Nat) (m : HashMap K V) (key : K) : HashMap K V × Entry K V :=
  entryPost hash (preResize hash m) key

/-- Source: `VacantEntry::insert` — push `(key, value)` onto the captured bucket,
increment `items`, return (a mutable reference to) the newly stored value. -/
def VacantEntry.insert (m : HashMap K V) (key : K) (bucket : Nat) (value : V) :
    HashMap K V × V :=
  ({ buckets := pushPair m.buckets bucket (key, value), items := m.items + 1 }, value)

/-- Source: `Entry::or_insert` — occupied: return the existing value untouched;
vacant: `VacantEntry::insert` the given value. -/
def Entry.or_insert : HashMap K V × Entry K V → V → HashMap K V × V
  | (m, Entry.occupied e), _ => (m, e.2)
  | (m, Entry.vacant key b), value => VacantEntry.insert m key b value

/-- Source: `Entry::or_insert_with` — the `FnOnce` producer is modelled as an
explicit state transformer `σ → V × σ` so that invocations are observable:
the occupied arm never runs it, the vacant arm runs it exactly once
(`e.insert(maker())`). -/
def Entry.or_insert_with {σ : Type} :
    HashMap K V × Entry K V → (σ → V × σ) → σ → (HashMap K V × V) × σ
  | (m, Entry.occupied e), _, s => ((m, e.2), s)
  | (m, Entry.vacant key b), maker, s =>
    let r := maker s
    (VacantEntry.insert m key b r.1, r.2)

/-- Source: `Entry::or_insert_default` — `self.or_insert_with(Default::default)`. -/
def Entry.or_insert_default [Inhabited V] (em : HashMap K V × Entry K V) : HashMap K V × V :=
  (Entry.or_insert_with em (fun (s : Unit) => (default, s)) ()).1

/-- Source: `struct Iter { map, bucket, at }`. The `map` reference is passed to
`Iter.next` explicitly; `pos` models the source field `at` (a Lean keyword). -/
structure Iter where
  bucket : Nat
  pos : Nat
deriving DecidableEq

/-- Source: `Iter::next` — loop: if the current bucket index is past the end,
stop; else if the current offset is inside the bucket's chain, yield that pair
and advance the offset; else move to the next bucket at offset 0 and continue. -/
def Iter.next (m : HashMap K V) (it : Iter) : Option ((K × V) × Iter) :=
  match h : m.buckets[it.bucket]? with
  | none => none
  | some chain =>
    match chain[it.pos]? with
    | some e => some (e, { bucket := it.bucket, pos := it.pos + 1 })
    | none => Iter.next m { bucket := it.bucket + 1, pos := 0 }
termination_by m.buckets.length - it.bucket
decreasing_by
  have hb : it.bucket < m.buckets.length := by
    by_contra hc
    rw [List.getElem?_eq_none (Nat.le_of_not_lt hc)] at h
    exact Option.noConfusion h
  omega

/-- Source: `IntoIterator for &HashMap` — a fresh cursor at bucket 0, offset 0. -/
def HashMap.into_iter (_m : HashMap K V) : Iter :=
  { bucket := 0, pos := 0 }

/-- Driving a cursor to completion: collect at most `fuel` elements by repeated
`Iter.next`. A complete traversal is `toList` with any `fuel ≥` the number of
stored pairs. -/
def Iter.toList (m : HashMap K V) : Nat → Iter → List (K × V)
  | 0, _ => []
  | fuel + 1, it =>
    match Iter.next m it with
    | none => []
    | some r => r.1 :: Iter.toList m fuel r.2

/-- Folding `insert` over a pair sequence, as `FromIterator::from_iter` does. -/
def insertList (hash : K → Nat) (m : HashMap K V) (ps : List (K × V)) : HashMap K V :=
  ps.foldl (fun acc e => (acc.insert hash e.1 e.2).2) m

/-- Source: `FromIterator for HashMap` — start from `new`, insert each pair in order. -/
def HashMap.from_iter (hash : K → Nat) (ps : List (K × V)) : HashMap K V :=
  insertList hash HashMap.new ps

/-! ## Structural lemmas about `resize` and the rehash loop -/

theorem pushPair_length (bs : List (List (K × V))) (i : Nat) (e : K × V) :
    (pushPair bs i e).length = bs.length := by
  simp [pushPair]

theorem foldl_rehashStep_length (hash : K → Nat) (ps : List (K × V)) :
    ∀ bs : List (List (K × V)), (ps.foldl (rehashStep hash) bs).length = bs.length := by
  induction ps with
  | nil => intro bs; rfl
  | cons p ps ih =>
    intro bs
    rw [List.foldl_cons, ih]
    simp [rehashStep, pushPair]

theorem resize_length (hash : K → Nat) (m : HashMap K V) :
    (m.resize hash).buckets.length =
      if m.buckets.length = 0 then 1 else 2 * m.buckets.length := by
  show (m.buckets.flatten.foldl (rehashStep hash) _).length = _
  rw [foldl_rehashStep_length, List.length_replicate]
  rcases h : m.buckets.length with _ | n <;> simp [INITIAL_NBUCKETS]

theorem resize_length_pos (hash : K → Nat) (m : HashMap K V) :
    0 < (m.resize hash).buckets.length := by
  rw [resize_length]
  rcases h : m.buckets.length with _ | n <;> simp

theorem resize_items (hash : K → Nat) (m : HashMap K V) :
    (m.resize hash).items = m.items := rfl

theorem preResize_length_pos (hash : K → Nat) (m : HashMap K V) :
    0 < (preResize hash m).buckets.length := by
  unfold preResize
  split
  · exact resize_length_pos hash m
  · next h =>
    rw [not_or] at h
    have h2 : ¬ m.buckets = [] := by simpa [List.isEmpty_iff] using h.1
    exact List.length_pos.mpr h2

theorem preResize_items (hash : K → Nat) (m : HashMap K V) :
    (preResize hash m).items = m.items := by
  unfold preResize
  split <;> rfl

theorem flatten_pushPair_perm (e : K × V) :
    ∀ (bs : List (List (K × V))) (i : Nat), i < bs.length →
      (pushPair bs i e).flatten.Perm (e :: bs.flatten) := by
  intro bs
  induction bs with
  | nil => intro i hi; simp at hi
  | cons c rest ih =>
    intro i hi
    cases i with
    | zero =>
      simp only [pushPair, List.getD_cons_zero, List.set_cons_zero, List.flatten_cons,
        List.append_assoc, List.singleton_append]
      exact List.perm_middle
    | succ i =>
      have hi2 : i < rest.length := by simpa using hi
      have step : (pushPair rest i e).flatten.Perm (e :: rest.flatten) := ih i hi2
      simp only [pushPair, List.getD_cons_succ, List.set_cons_succ, List.flatten_cons] at step ⊢
      exact (step.append_left c).trans List.perm_middle

theorem flatten_replicate_nil (n : Nat) :
    (List.replicate n ([] : List (K × V))).flatten = [] := by
  induction n with
  | zero => rfl
  | succ n ih => simpa using ih

theorem foldl_rehashStep_flatten_perm (hash : K → Nat) (ps : List (K × V)) :
    ∀ bs : List (List (K × V)), 0 < bs.length →
      (ps.foldl (rehashStep hash) bs).flatten.Perm (ps ++ bs.flatten) := by
  induction ps with
  | nil => intro bs hbs; simp
  | cons p ps ih =>
    intro bs hbs
    rw [List.foldl_cons]
    have hlen : (rehashStep hash bs p).length = bs.length := by simp [rehashStep, pushPair]
    have h1 := ih (rehashStep hash bs p) (by omega)
    have h2 : (rehashStep hash bs p).flatten.Perm (p :: bs.flatten) :=
      flatten_pushPair_perm p bs (hash p.1 % bs.length) (Nat.mod_lt _ hbs)
    exact (h1.trans ((h2.append_left ps).trans List.perm_middle)).trans (List.Perm.refl _)

theorem resize_flatten_perm (hash : K → Nat) (m : HashMap K V) :
    (m.resize hash).buckets.flatten.Perm m.buckets.flatten := by
  have hpos : 0 < (List.replicate
      (match m.buckets.length with
       | 0 => INITIAL_NBUCKETS
       | n => 2 * n) ([] : List (K × V))).length := by
    rw [List.length_replicate]
    rcases h : m.buckets.length with _ | n <;> simp [INITIAL_NBUCKETS]
  have h := foldl_rehashStep_flatten_perm hash m.buckets.flatten _ hpos
  rw [flatten_replicate_nil, List.append_nil] at h
  exact h

theorem preResize_flatten_perm (hash : K → Nat) (m : HashMap K V) :
    (preResize hash m).buckets.flatten.Perm m.buckets.flatten := by
  unfold preResize
  split
  · exact resize_flatten_perm hash m
  · exact List.Perm.refl _

/-! ## Bucket-placement invariant -/

/-- Every pair sits in the bucket its hash selects under the current bucket count. -/
def Placed (hash : K → Nat) (bs : List (List (K × V))) : Prop :=
  ∀ i chain, bs[i]? = some chain → ∀ e ∈ chain, hash e.1 % bs.length = i

theorem placed_nil_buckets (hash : K → Nat) (n : Nat) :
    Placed hash (List.replicate n ([] : List (K × V))) := by
  intro i chain hi e he
  rcases List.getElem?_eq_some.mp hi with ⟨hlt, hval⟩
  rw [List.getElem_replicate] at hval
  rw [← hval] at he
  simp at he

theorem getD_getElem? {α : Type} (l : List α) (i : Nat) (d : α) (h : i < l.length) :
    l[i]? = some (l.getD i d) := by
  rw [List.getD_eq_getElem?_getD, List.getElem?_eq_getElem h]
  rfl

theorem getD_eq_getElem {α : Type} (l : List α) (i : Nat) (d : α) (h : i < l.length) :
    l.getD i d = l[i] := by
  rw [List.getD_eq_getElem?_getD, List.getElem?_eq_getElem h]
  rfl

theorem mem_getD_flatten (bs : List (List (K × V))) (i : Nat) (hi : i < bs.length)
    (e : K × V) (he : e ∈ bs.getD i []) : e ∈ bs.flatten := by
  rw [getD_eq_getElem bs i [] hi] at he
  exact List.mem_flatten.mpr ⟨bs[i], List.getElem_mem hi, he⟩

theorem placed_rehashStep (hash : K → Nat) (bs : List (List (K × V))) (e : K × V)
    (hp : Placed hash bs) (hpos : 0 < bs.length) : Placed hash (rehashStep hash bs e) := by
  intro i chain hi f hf
  have hlen : (rehashStep hash bs e).length = bs.length := by simp [rehashStep, pushPair]
  rw [hlen]
  rw [show rehashStep hash bs e =
      bs.set (hash e.1 % bs.length) (bs.getD (hash e.1 % bs.length) [] ++ [e]) from rfl,
    List.getElem?_set] at hi
  by_cases hbi : hash e.1 % bs.length = i
  · rw [if_pos hbi, if_pos (Nat.mod_lt _ hpos)] at hi
    injection hi with hchain
    rw [← hchain] at hf
    rcases List.mem_append.mp hf with h | h
    · exact hp (hash e.1 % bs.length) _
        (getD_getElem? bs _ [] (Nat.mod_lt _ hpos)) f h |>.trans hbi
    · have : f = e := by simpa using h
      rw [this]
      exact hbi
  · rw [if_neg hbi] at hi
    exact hp i chain hi f hf

theorem placed_foldl_rehash (hash : K → Nat) (ps : List (K × V)) :
    ∀ bs : List (List (K × V)), 0 < bs.length → Placed hash bs →
      Placed hash (ps.foldl (rehashStep hash) bs) := by
  induction ps with
  | nil => intro bs _ hp; exact hp
  | cons p ps ih =>
    intro bs hpos hp
    rw [List.foldl_cons]
    have hlen : (rehashStep hash bs p).length = bs.length := by simp [rehashStep, pushPair]
    exact ih _ (by omega) (placed_rehashStep hash bs p hp hpos)

theorem resize_placed (hash : K → Nat) (m : HashMap K V) :
    Placed hash (m.resize hash).buckets := by
  apply placed_foldl_rehash
  · rw [List.length_replicate]
    rcases h : m.buckets.length with _ | n <;> simp [INITIAL_NBUCKETS]
  · exact placed_nil_buckets hash _

/-! ## Chain-scan lemmas -/

theorem replaceInChain_eq_none_iff (key : K) (value : V) (c : List (K × V)) :
    replaceInChain key value c = none ↔ ∀ e ∈ c, e.1 ≠ key := by
  induction c with
  | nil => simp [replaceInChain]
  | cons e rest ih =>
    by_cases h : e.1 = key
    · simp [replaceInChain, h]
    · simp [replaceInChain, h, Option.map_eq_none', ih]

theorem replaceInChain_find (key : K) (value : V) (c : List (K × V)) :
    ∀ r : V × List (K × V), replaceInChain key value c = some r →
      r.2.find? (fun e => decide (e.1 = key)) = some (key, value) := by
  induction c with
  | nil => intro r h; simp [replaceInChain] at h
  | cons e rest ih =>
    intro r h
    by_cases he : e.1 = key
    · rw [replaceInChain, if_pos he] at h
      injection h with h
      rw [← h]
      simp [List.find?, he]
    · rw [replaceInChain, if_neg he] at h
      rcases Option.map_eq_some'.mp h with ⟨r2, hr2, hmap⟩
      rw [← hmap]
      show (e :: r2.2).find? (fun f => decide (f.1 = key)) = some (key, value)
      rw [List.find?_cons_of_neg _ (by simpa using he)]
      exact ih r2 hr2

theorem find?_append_last (key : K) (value : V) (c : List (K × V))
    (hc : ∀ e ∈ c, e.1 ≠ key) :
    (c ++ [(key, value)]).find? (fun e => decide (e.1 = key)) = some (key, value) := by
  rw [List.find?_append]
  have hn : c.find? (fun e => decide (e.1 = key)) = none := by
    rw [List.find?_eq_none]
    intro x hx
    simpa using hc x hx
  rw [hn]
  simp [List.find?]

theorem position_eq_none_iff {α : Type} (p : α → Bool) (l : List α) :
    position p l = none ↔ ∀ e ∈ l, ¬ p e := by
  induction l with
  | nil => simp [position]
  | cons e rest ih => by_cases h : p e <;> simp [position, h, ih]

theorem position_append_last {α : Type} (p : α → Bool) (l : List α) (x : α)
    (hl : ∀ e ∈ l, ¬ p e) (hx : p x) :
    position p (l ++ [x]) = some l.length := by
  induction l with
  | nil => simp [position, hx]
  | cons e rest ih =>
    have h1 : ¬ p e = true := hl e (by simp)
    have h2 : ∀ f ∈ rest, ¬ p f := fun f hf => hl f (by simp [hf])
    simp [position, h1, ih h2]

theorem set_concat_length {α : Type} (l : List α) (x y : α) :
    (l ++ [x]).set l.length y = l ++ [y] := by
  induction l with
  | nil => rfl
  | cons e rest ih => simp [List.set_cons_succ, ih]

theorem swapRemove_concat {α : Type} (l : List α) (x : α) :
    swapRemove (l ++ [x]) l.length = l := by
  unfold swapRemove
  rw [List.getLast?_concat]
  show ((l ++ [x]).set l.length x).dropLast = l
  rw [set_concat_length, List.dropLast_concat]

/-! ## Behaviour of `insert` -/

theorem insertPost_get (hash : K → Nat) (m1 : HashMap K V) (key : K) (value : V)
    (hpos : 0 < m1.buckets.length) :
    ((insertPost hash m1 key value).2).get hash key = some (some value) := by
  have hblt : hash key % m1.buckets.length < m1.buckets.length := Nat.mod_lt _ hpos
  unfold insertPost
  cases hrc : replaceInChain key value
      (m1.buckets.getD (hash key % m1.buckets.length) []) with
  | some r =>
    show HashMap.get hash
      { buckets := m1.buckets.set (hash key % m1.buckets.length) r.2,
        items := m1.items + 1 } key = some (some value)
    unfold HashMap.get HashMap.bucket
    simp only [List.length_set]
    rw [if_neg (by omega)]
    simp only [Option.some_bind]
    rw [List.getElem?_set_self hblt]
    simp only [Option.map_some']
    rw [replaceInChain_find key value _ r hrc]
    rfl
  | none =>
    show HashMap.get hash
      { buckets := pushPair m1.buckets (hash key % m1.buckets.length) (key, value),
        items := m1.items + 1 } key = some (some value)
    unfold HashMap.get HashMap.bucket pushPair
    simp only [List.length_set]
    rw [if_neg (by omega)]
    simp only [Option.some_bind]
    rw [List.getElem?_set_self hblt]
    simp only [Option.map_some']
    rw [find?_append_last key value _
      ((replaceInChain_eq_none_iff key value _).mp hrc)]
    rfl

/-- Claim C4: for all keys `k` and values `v`, on any table, `insert(k, v)`
followed by `get(k)` returns `v`. No well-formedness hypothesis is needed: the
resize precheck guarantees a non-empty bucket array, and the scan that `get`
performs retraces `insert`'s scan of the same bucket. -/
theorem insert_get_roundtrip (hash : K → Nat) (m : HashMap K V) (key : K) (value : V) :
    ((m.insert hash key value).2).get hash key = some (some value) :=
  insertPost_get hash (preResize hash m) key value (preResize_length_pos hash m)

theorem insertPost_absent (hash : K → Nat) (m1 : HashMap K V) (key : K) (value : V)
    (hpos : 0 < m1.buckets.length)
    (habs : ∀ e ∈ m1.buckets.flatten, e.1 ≠ key) :
    insertPost hash m1 key value =
      (none, { buckets := pushPair m1.buckets (hash key % m1.buckets.length) (key, value),
               items := m1.items + 1 }) := by
  have hchain : ∀ e ∈ m1.buckets.getD (hash key % m1.buckets.length) [], e.1 ≠ key :=
    fun e he => habs e (mem_getD_flatten _ _ (Nat.mod_lt _ hpos) e he)
  unfold insertPost
  rw [(replaceInChain_eq_none_iff key value _).mpr hchain]

/-! ## Behaviour of `remove` -/

/-- Claim C5: for every table and key `k` absent from it, after `insert(k, v)`,
`remove(k)` returns `v`, a subsequent `get(k)` returns nothing, and `len()`
after the remove is one less than `len()` after the insert. -/
theorem insert_remove_roundtrip (hash : K → Nat) (m : HashMap K V) (key : K) (value : V)
    (habs : ∀ e ∈ m.buckets.flatten, e.1 ≠ key) :
    ∃ m2 : HashMap K V,
      ((m.insert hash key value).2).remove hash key = some (some value, m2) ∧
      m2.get hash key = some none ∧
      m2.len + 1 = ((m.insert hash key value).2).len := by
  set M := preResize hash m with hM
  have hpos : 0 < M.buckets.length := preResize_length_pos hash m
  have habsM : ∀ e ∈ M.buckets.flatten, e.1 ≠ key := by
    intro e he
    exact habs e ((preResize_flatten_perm hash m).mem_iff.mp he)
  set b := hash key % M.buckets.length with hb
  have hblt : b < M.buckets.length := hb ▸ Nat.mod_lt _ hpos
  have hcabs : ∀ e ∈ M.buckets.getD b [], e.1 ≠ key :=
    fun e he => habsM e (mem_getD_flatten _ _ hblt e he)
  have hins : m.insert hash key value =
      (none, { buckets := pushPair M.buckets b (key, value), items := M.items + 1 }) := by
    show insertPost hash M key value = _
    rw [insertPost_absent hash M key value hpos habsM, ← hb]
  rw [hins]
  have hpush : pushPair M.buckets b (key, value) =
      M.buckets.set b (M.buckets.getD b [] ++ [(key, value)]) := rfl
  refine ⟨{ buckets := (M.buckets.set b (M.buckets.getD b [] ++ [(key, value)])).set b
              (M.buckets.getD b []),
            items := M.items }, ?_, ?_, ?_⟩
  · unfold HashMap.remove HashMap.bucket
    have hlen1 : (pushPair M.buckets b (key, value)).length = M.buckets.length := by
      simp [pushPair]
    simp only [hlen1]
    rw [if_neg (by omega), ← hb]
    simp only [Option.some_bind, hpush]
    rw [List.getElem?_set_self hblt]
    simp only [Option.some_bind]
    rw [position_append_last _ _ (key, value)
      (fun e he => by simpa using hcabs e he) (by simp)]
    dsimp only
    rw [List.getElem?_concat_length]
    simp only [Option.map_some']
    rw [swapRemove_concat]
    simp [Nat.add_sub_cancel]
  · unfold HashMap.get HashMap.bucket
    simp only [List.length_set]
    rw [if_neg (by omega), ← hb]
    simp only [Option.some_bind]
    rw [List.getElem?_set_self (by simpa using hblt)]
    simp only [Option.map_some']
    rw [List.find?_eq_none.mpr (fun e he => by simpa using hcabs e he)]
    rfl
  · simp [HashMap.len]

/-- Claim C10: on a table with a non-empty bucket array, `remove` of a key that
is stored nowhere returns nothing and leaves the table (item counter and every
bucket chain, contents and order) completely unchanged — the `position(..)?`
early return hands back `None` before any mutation. -/
theorem remove_absent_noop (hash : K → Nat) (m : HashMap K V) (key : K)
    (hne : m.buckets ≠ [])
    (habs : ∀ e ∈ m.buckets.flatten, e.1 ≠ key) :
    m.remove hash key = some (none, m) := by
  have hpos : 0 < m.buckets.length := List.length_pos.mpr hne
  have hblt : hash key % m.buckets.length < m.buckets.length := Nat.mod_lt _ hpos
  unfold HashMap.remove HashMap.bucket
  rw [if_neg (by omega)]
  simp only [Option.some_bind]
  rw [List.getElem?_eq_getElem hblt]
  simp only [Option.some_bind]
  have hchain : ∀ e ∈ m.buckets[hash key % m.buckets.length], ¬ (decide (e.1 = key) = true) := by
    intro e he
    simpa using habs e (List.mem_flatten.mpr ⟨_, List.getElem_mem hblt, he⟩)
  rw [(position_eq_none_iff _ _).mpr hchain]

/-! ## Behaviour of `entry` and `or_insert` -/

theorem scan_chain_find (key : K) (v : V) (c : List (K × V))
    (hmem : (key, v) ∈ c) (huniq : ∀ e ∈ c, e.1 = key → e = (key, v)) :
    c.find? (fun e => decide (e.1 = key)) = some (key, v) := by
  induction c with
  | nil => simp at hmem
  | cons e rest ih =>
    by_cases he : e.1 = key
    · rw [List.find?_cons_of_pos _ (by simpa using he)]
      exact congrArg some (huniq e (by simp) he)
    · rw [List.find?_cons_of_neg _ (by simpa using he)]
      have hmem2 : (key, v) ∈ rest := by
        rcases List.mem_cons.mp hmem with h | h
        · rw [← h] at he
          simp at he
        · exact h
      exact ih hmem2 (fun f hf => huniq f (by simp [hf]))

theorem entryPost_vacant (hash : K → Nat) (M : HashMap K V) (key : K)
    (hpos : 0 < M.buckets.length)
    (habs : ∀ e ∈ M.buckets.flatten, e.1 ≠ key) :
    entryPost hash M key = (M, Entry.vacant key (hash key % M.buckets.length)) := by
  unfold entryPost
  rw [List.find?_eq_none.mpr (fun e he => by
    simpa using habs e (mem_getD_flatten _ _ (Nat.mod_lt _ hpos) e he))]

theorem entryPost_occupied (hash : K → Nat) (M : HashMap K V) (key : K) (v : V)
    (hpos : 0 < M.buckets.length)
    (hmem : (key, v) ∈ M.buckets.getD (hash key % M.buckets.length) [])
    (huniq : ∀ e ∈ M.buckets.flatten, e.1 = key → e = (key, v)) :
    entryPost hash M key = (M, Entry.occupied (key, v)) := by
  unfold entryPost
  rw [scan_chain_find key v _ hmem
    (fun e he hk => huniq e (mem_getD_flatten _ _ (Nat.mod_lt _ hpos) e he) hk)]

theorem mem_bucket_of_placed (hash : K → Nat) (bs : List (List (K × V))) (e : K × V)
    (hp : Placed hash bs) (hpos : 0 < bs.length) (he : e ∈ bs.flatten) :
    e ∈ bs.getD (hash e.1 % bs.length) [] := by
  rcases List.mem_flatten.mp he with ⟨c, hc, hec⟩
  rcases List.mem_iff_getElem.mp hc with ⟨i, hi, hval⟩
  have hq : bs[i]? = some c := by
    rw [List.getElem?_eq_getElem hi, hval]
  have := hp i c hq e hec
  rw [this, getD_eq_getElem bs i [] hi, hval]
  exact hec

/-- Claim C6: on a key absent from the table, `entry(k).or_insert(v1)` stores
`v1` and returns it; an immediately following `entry(k).or_insert(v2)` returns
`v1` unchanged (the existing value wins), leaves `len()` unchanged, and does
not change the stored pairs (up to the bucket reshuffling a triggered resize
performs, which preserves the multiset of pairs). -/
theorem entry_or_insert_idempotent (hash : K → Nat) (m : HashMap K V) (key : K) (v1 v2 : V)
    (habs : ∀ e ∈ m.buckets.flatten, e.1 ≠ key) :
    (Entry.or_insert (m.entry hash key) v1).2 = v1 ∧
    (Entry.or_insert (m.entry hash key) v1).1.get hash key = some (some v1) ∧
    (Entry.or_insert ((Entry.or_insert (m.entry hash key) v1).1.entry hash key) v2).2 = v1 ∧
    (Entry.or_insert ((Entry.or_insert (m.entry hash key) v1).1.entry hash key) v2).1.len
      = (Entry.or_insert (m.entry hash key) v1).1.len ∧
    List.Perm
      (Entry.or_insert ((Entry.or_insert (m.entry hash key) v1).1.entry hash key) v2).1.buckets.flatten
      (Entry.or_insert (m.entry hash key) v1).1.buckets.flatten := by
  set M := preResize hash m with hM
  have hpos : 0 < M.buckets.length := preResize_length_pos hash m
  have habsM : ∀ e ∈ M.buckets.flatten, e.1 ≠ key := by
    intro e he
    exact habs e ((preResize_flatten_perm hash m).mem_iff.mp he)
  set b := hash key % M.buckets.length with hb
  have hblt : b < M.buckets.length := hb ▸ Nat.mod_lt _ hpos
  have hent1 : m.entry hash key = (M, Entry.vacant key b) := by
    show entryPost hash M key = _
    rw [entryPost_vacant hash M key hpos habsM, ← hb]
  rw [hent1]
  have hoi1 : Entry.or_insert (M, Entry.vacant key b) v1 =
      ({ buckets := pushPair M.buckets b (key, v1), items := M.items + 1 }, v1) := rfl
  rw [hoi1]
  set m1 : HashMap K V :=
    { buckets := pushPair M.buckets b (key, v1), items := M.items + 1 } with hm1
  have hget1 : m1.get hash key = some (some v1) := by
    have hig := insertPost_get hash M key v1 hpos
    rw [insertPost_absent hash M key v1 hpos habsM, ← hb] at hig
    exact hig
  have hflat1 : m1.buckets.flatten.Perm ((key, v1) :: M.buckets.flatten) := by
    rw [hm1]
    exact flatten_pushPair_perm (key, v1) M.buckets b hblt
  have huniq1 : ∀ e ∈ m1.buckets.flatten, e.1 = key → e = (key, v1) := by
    intro e he hk
    rcases List.mem_cons.mp (hflat1.mem_iff.mp he) with h | h
    · exact h
    · exact absurd hk (habsM e h)
  set M2 := preResize hash m1 with hM2
  have hpos2 : 0 < M2.buckets.length := preResize_length_pos hash m1
  have hflat2 : M2.buckets.flatten.Perm m1.buckets.flatten := preResize_flatten_perm hash m1
  have huniq2 : ∀ e ∈ M2.buckets.flatten, e.1 = key → e = (key, v1) :=
    fun e he hk => huniq1 e (hflat2.mem_iff.mp he) hk
  have hmemflat1 : (key, v1) ∈ m1.buckets.flatten :=
    hflat1.mem_iff.mpr (List.mem_cons_self _ _)
  have hmem2 : (key, v1) ∈ M2.buckets.getD (hash key % M2.buckets.length) [] := by
    rw [hM2]
    unfold preResize
    split
    · exact mem_bucket_of_placed hash (m1.resize hash).buckets (key, v1)
        (resize_placed hash m1) (resize_length_pos hash m1)
        ((resize_flatten_perm hash m1).mem_iff.mpr hmemflat1)
    · have hlen1 : m1.buckets.length = M.buckets.length := by
        rw [hm1]
        simp [pushPair]
      rw [hlen1, ← hb, hm1]
      show (key, v1) ∈ (M.buckets.set b (M.buckets.getD b [] ++ [(key, v1)])).getD b []
      rw [getD_eq_getElem _ b [] (by simpa using hblt)]
      rw [List.getElem_set_self]
      · simp
  have hent2 : m1.entry hash key = (M2, Entry.occupied (key, v1)) := by
    show entryPost hash M2 key = _
    exact entryPost_occupied hash M2 key v1 hpos2 hmem2 huniq2
  rw [hent2]
  have hoi2 : Entry.or_insert (M2, Entry.occupied (key, v1)) v2 = (M2, v1) := rfl
  rw [hoi2]
  refine ⟨rfl, hget1, rfl, ?_, hflat2⟩
  show M2.items = m1.items
  rw [hM2]
  exact preResize_items hash m1

/-! ## Representation invariant for distinct-key insertion sequences -/

/-- Well-formedness: the item counter matches the stored pair count, every pair
sits in its hash bucket, and stored keys are pairwise distinct. -/
def WF (hash : K → Nat) (m : HashMap K V) : Prop :=
  m.items = m.buckets.flatten.length ∧
  Placed hash m.buckets ∧
  (m.buckets.flatten.map Prod.fst).Nodup

theorem WF_new (hash : K → Nat) : WF hash (HashMap.new : HashMap K V) := by
  refine ⟨rfl, ?_, ?_⟩
  · intro i chain hi
    simp [HashMap.new] at hi
  · simp [HashMap.new]

theorem WF_resize (hash : K → Nat) (m : HashMap K V) (h : WF hash m) :
    WF hash (m.resize hash) := by
  obtain ⟨hitems, hplaced, hnodup⟩ := h
  refine ⟨?_, resize_placed hash m, ?_⟩
  · rw [resize_items, (resize_flatten_perm hash m).length_eq, hitems]
  · exact ((resize_flatten_perm hash m).map Prod.fst).nodup_iff.mpr hnodup

theorem WF_preResize (hash : K → Nat) (m : HashMap K V) (h : WF hash m) :
    WF hash (preResize hash m) := by
  unfold preResize
  split
  · exact WF_resize hash m h
  · exact h

theorem insert_absent_wf (hash : K → Nat) (m : HashMap K V) (key : K) (value : V)
    (hwf : WF hash m) (habs : ∀ e ∈ m.buckets.flatten, e.1 ≠ key) :
    WF hash (m.insert hash key value).2 ∧
    (m.insert hash key value).2.buckets.flatten.Perm ((key, value) :: m.buckets.flatten) ∧
    (m.insert hash key value).2.items = m.items + 1 := by
  set M := preResize hash m with hM
  have hpos : 0 < M.buckets.length := preResize_length_pos hash m
  have hpermM : M.buckets.flatten.Perm m.buckets.flatten := preResize_flatten_perm hash m
  have hwfM : WF hash M := WF_preResize hash m hwf
  have habsM : ∀ e ∈ M.buckets.flatten, e.1 ≠ key :=
    fun e he => habs e (hpermM.mem_iff.mp he)
  have hins : m.insert hash key value =
      (none, { buckets := pushPair M.buckets (hash key % M.buckets.length) (key, value),
               items := M.items + 1 }) := by
    show insertPost hash M key value = _
    exact insertPost_absent hash M key value hpos habsM
  rw [hins]
  obtain ⟨hitemsM, hplacedM, hnodupM⟩ := hwfM
  have hflat : (pushPair M.buckets (hash key % M.buckets.length) (key, value)).flatten.Perm
      ((key, value) :: M.buckets.flatten) :=
    flatten_pushPair_perm (key, value) M.buckets _ (Nat.mod_lt _ hpos)
  have hflat2 : (pushPair M.buckets (hash key % M.buckets.length) (key, value)).flatten.Perm
      ((key, value) :: m.buckets.flatten) :=
    hflat.trans (hpermM.cons (key, value))
  have hknotin : key ∉ M.buckets.flatten.map Prod.fst := by
    intro hin
    rcases List.mem_map.mp hin with ⟨e, he, hk⟩
    exact habsM e he hk
  refine ⟨⟨?_, ?_, ?_⟩, hflat2, ?_⟩
  · show M.items + 1 = _
    rw [hflat.length_eq]
    simp [hitemsM]
  · show Placed hash (pushPair M.buckets (hash key % M.buckets.length) (key, value))
    exact placed_rehashStep hash M.buckets (key, value) hplacedM hpos
  · show ((pushPair M.buckets (hash key % M.buckets.length) (key, value)).flatten.map
      Prod.fst).Nodup
    rw [(hflat.map Prod.fst).nodup_iff]
    exact List.nodup_cons.mpr ⟨hknotin, hnodupM⟩
  · show M.items + 1 = m.items + 1
    rw [hM, preResize_items]

theorem wf_get (hash : K → Nat) (m : HashMap K V) (key : K) (v : V)
    (hwf : WF hash m) (hpos : 0 < m.buckets.length)
    (hmem : (key, v) ∈ m.buckets.flatten) :
    m.get hash key = some (some v) := by
  obtain ⟨hitems, hplaced, hnodup⟩ := hwf
  have hblt : hash key % m.buckets.length < m.buckets.length := Nat.mod_lt _ hpos
  have huniq : ∀ e ∈ m.buckets.flatten, e.1 = key → e = (key, v) := by
    intro e he hk
    exact List.inj_on_of_nodup_map hnodup he hmem (by simpa using hk)
  have hmb : (key, v) ∈ m.buckets.getD (hash key % m.buckets.length) [] := by
    simpa using mem_bucket_of_placed hash m.buckets (key, v) hplaced hpos hmem
  rw [getD_eq_getElem _ _ [] hblt] at hmb
  unfold HashMap.get HashMap.bucket
  rw [if_neg (by omega)]
  simp only [Option.some_bind]
  rw [List.getElem?_eq_getElem hblt]
  simp only [Option.map_some']
  rw [scan_chain_find key v _ hmb
    (fun e he hk => huniq e (List.mem_flatten.mpr ⟨_, List.getElem_mem hblt, he⟩) hk)]
  rfl

theorem insert_length_pos (hash : K → Nat) (m : HashMap K V) (key : K) (value : V) :
    0 < ((m.insert hash key value).2).buckets.length := by
  have hpos := preResize_length_pos hash m
  show 0 < ((insertPost hash (preResize hash m) key value).2).buckets.length
  unfold insertPost
  split <;> simp [pushPair, List.length_set] <;> omega

theorem insertList_length_pos (hash : K → Nat) :
    ∀ (ps : List (K × V)) (m : HashMap K V), ps ≠ [] →
      0 < (insertList hash m ps).buckets.length := by
  intro ps
  induction ps with
  | nil => intro m h; exact absurd rfl h
  | cons p rest ih =>
    intro m _
    show 0 < (insertList hash ((m.insert hash p.1 p.2).2) rest).buckets.length
    cases rest with
    | nil => exact insert_length_pos hash m p.1 p.2
    | cons q qs => exact ih _ (by simp)

theorem insertList_wf (hash : K → Nat) :
    ∀ (ps : List (K × V)) (m : HashMap K V), WF hash m →
      ((m.buckets.flatten.map Prod.fst) ++ ps.map Prod.fst).Nodup →
      WF hash (insertList hash m ps) ∧
      (insertList hash m ps).buckets.flatten.Perm (m.buckets.flatten ++ ps) := by
  intro ps
  induction ps with
  | nil =>
    intro m hwf hnd
    exact ⟨hwf, by simp [insertList]⟩
  | cons p rest ih =>
    intro m hwf hnd
    obtain ⟨k, v⟩ := p
    rw [List.map_cons] at hnd
    have hknotin : k ∉ m.buckets.flatten.map Prod.fst := by
      intro hin
      rcases List.nodup_append.mp hnd with ⟨h1, h2, h3⟩
      exact h3 hin (List.mem_cons_self _ _)
    have habs : ∀ e ∈ m.buckets.flatten, e.1 ≠ k := by
      intro e he hk
      exact hknotin (List.mem_map.mpr ⟨e, he, hk⟩)
    obtain ⟨hwf2, hperm2, hitems2⟩ := insert_absent_wf hash m k v hwf habs
    have hstep : insertList hash m ((k, v) :: rest) =
        insertList hash ((m.insert hash k v).2) rest := rfl
    rw [hstep]
    have hpermkeys :
        (((m.insert hash k v).2).buckets.flatten.map Prod.fst ++ rest.map Prod.fst).Perm
          (m.buckets.flatten.map Prod.fst ++ (k :: rest.map Prod.fst)) := by
      have h1 : (((m.insert hash k v).2).buckets.flatten.map Prod.fst).Perm
          (k :: m.buckets.flatten.map Prod.fst) := by
        simpa using hperm2.map Prod.fst
      exact (h1.append_right _).trans List.perm_middle.symm
    have hnodup2 := hpermkeys.nodup_iff.mpr hnd
    obtain ⟨hwf3, hperm3⟩ := ih ((m.insert hash k v).2) hwf2 hnodup2
    refine ⟨hwf3, ?_⟩
    exact (hperm3.trans (hperm2.append_right rest)).trans List.perm_middle.symm

/-! ## Iterator traversal -/

theorem le_of_getElem?_eq_none {α : Type} (l : List α) (i : Nat) (h : l[i]? = none) :
    l.length ≤ i := by
  by_contra hc
  rw [List.getElem?_eq_getElem (Nat.lt_of_not_le hc)] at h
  exact Option.noConfusion h

theorem lt_of_getElem?_eq_some {α : Type} (l : List α) (i : Nat) (a : α) (h : l[i]? = some a) :
    i < l.length :=
  (List.getElem?_eq_some.mp h).1

/-- The suffix of the traversal that remains from cursor `it`: the rest of the
current bucket's chain, then all later buckets in order. -/
def iterRest (m : HashMap K V) (it : Iter) : List (K × V) :=
  match m.buckets[it.bucket]? with
  | none => []
  | some chain => chain.drop it.pos ++ (m.buckets.drop (it.bucket + 1)).flatten

theorem iterRest_eq_none (m : HashMap K V) (it : Iter)
    (h : m.buckets[it.bucket]? = none) : iterRest m it = [] := by
  unfold iterRest
  rw [h]

theorem iterRest_eq_some (m : HashMap K V) (it : Iter) (chain : List (K × V))
    (h : m.buckets[it.bucket]? = some chain) :
    iterRest m it = chain.drop it.pos ++ (m.buckets.drop (it.bucket + 1)).flatten := by
  unfold iterRest
  rw [h]

theorem iterRest_pos_zero (m : HashMap K V) (b : Nat) :
    iterRest m { bucket := b, pos := 0 } = (m.buckets.drop b).flatten := by
  cases h : m.buckets[b]? with
  | none =>
    rw [iterRest_eq_none m _ h, List.drop_eq_nil_of_le (le_of_getElem?_eq_none _ _ h)]
    rfl
  | some c =>
    rw [iterRest_eq_some m _ c h]
    rcases List.getElem?_eq_some.mp h with ⟨hb, hval⟩
    rw [List.drop_eq_getElem_cons hb, hval, List.flatten_cons]
    simp

theorem iterRest_next (m : HashMap K V) :
    ∀ (N : Nat) (it : Iter), m.buckets.length - it.bucket ≤ N →
      (Iter.next m it = none → iterRest m it = []) ∧
      (∀ e it2, Iter.next m it = some (e, it2) →
        iterRest m it = e :: iterRest m it2) := by
  intro N
  induction N with
  | zero =>
    intro it hle
    have hge : m.buckets.length ≤ it.bucket := by omega
    have hnone : m.buckets[it.bucket]? = none := List.getElem?_eq_none hge
    constructor
    · intro _
      exact iterRest_eq_none m it hnone
    · intro e it2 hsome
      unfold Iter.next at hsome
      split at hsome
      · exact Option.noConfusion hsome
      · next chain heq =>
        rw [hnone] at heq
        exact Option.noConfusion heq
  | succ n ih =>
    intro it hle
    constructor
    · intro hnone
      unfold Iter.next at hnone
      split at hnone
      · next heq =>
        exact iterRest_eq_none m it heq
      · next chain heq =>
        split at hnone
        · exact Option.noConfusion hnone
        · next heq2 =>
          have hblt : it.bucket < m.buckets.length := lt_of_getElem?_eq_some _ _ _ heq
          have hrec := (ih { bucket := it.bucket + 1, pos := 0 }
            (by show m.buckets.length - (it.bucket + 1) ≤ n; omega)).1 hnone
          rw [iterRest_pos_zero] at hrec
          rw [iterRest_eq_some m it chain heq,
            List.drop_eq_nil_of_le (le_of_getElem?_eq_none _ _ heq2), hrec]
          rfl
    · intro e it2 hsome
      unfold Iter.next at hsome
      split at hsome
      · exact Option.noConfusion hsome
      · next chain heq =>
        split at hsome
        · next f heq2 =>
          injection hsome with hpair
          have he : f = e := congrArg Prod.fst hpair
          have hit : ({ bucket := it.bucket, pos := it.pos + 1 } : Iter) = it2 :=
            congrArg Prod.snd hpair
          rcases List.getElem?_eq_some.mp heq2 with ⟨hplt, hval⟩
          rw [iterRest_eq_some m it chain heq, ← hit,
            iterRest_eq_some m { bucket := it.bucket, pos := it.pos + 1 } chain heq,
            List.drop_eq_getElem_cons hplt, hval, ← he]
          rfl
        · next heq2 =>
          have hblt : it.bucket < m.buckets.length := lt_of_getElem?_eq_some _ _ _ heq
          have hrec := (ih { bucket := it.bucket + 1, pos := 0 }
            (by show m.buckets.length - (it.bucket + 1) ≤ n; omega)).2 e it2 hsome
          rw [iterRest_pos_zero] at hrec
          rw [iterRest_eq_some m it chain heq,
            List.drop_eq_nil_of_le (le_of_getElem?_eq_none _ _ heq2),
            List.nil_append, hrec]

theorem toList_eq_iterRest (m : HashMap K V) :
    ∀ (fuel : Nat) (it : Iter), (iterRest m it).length ≤ fuel →
      Iter.toList m fuel it = iterRest m it := by
  intro fuel
  induction fuel with
  | zero =>
    intro it hle
    have h0 : iterRest m it = [] := by
      cases hr : iterRest m it with
      | nil => rfl
      | cons a l =>
        rw [hr] at hle
        simp at hle
    rw [h0]
    rfl
  | succ n ih =>
    intro it hle
    cases hnext : Iter.next m it with
    | none =>
      have hr := (iterRest_next m (m.buckets.length - it.bucket) it le_rfl).1 hnext
      rw [hr]
      unfold Iter.toList
      rw [hnext]
    | some r =>
      obtain ⟨e, it2⟩ := r
      have hstep := (iterRest_next m (m.buckets.length - it.bucket) it le_rfl).2 e it2 hnext
      have hlen2 : (iterRest m it2).length ≤ n := by
        rw [hstep] at hle
        simpa using hle
      unfold Iter.toList
      rw [hnext, hstep]
      show e :: Iter.toList m n it2 = e :: iterRest m it2
      rw [ih it2 hlen2]

theorem iterRest_start (m : HashMap K V) :
    iterRest m { bucket := 0, pos := 0 } = m.buckets.flatten := by
  rw [iterRest_pos_zero]
  rfl

theorem iter_traversal_core (m : HashMap K V) (fuel : Nat)
    (hfuel : m.buckets.flatten.length ≤ fuel) :
    Iter.toList m fuel m.into_iter = m.buckets.flatten := by
  have h := toList_eq_iterRest m fuel { bucket := 0, pos := 0 }
    (by rw [iterRest_start]; exact hfuel)
  rw [iterRest_start] at h
  exact h

/-! ## Claim theorems (remaining) and witnesses -/

/-- Claim C1 (code bug): inserting `0 → 1` then `0 → 2` does return `Some 1`
from the second call and a subsequent `get` does return `2`, but `len()` is NOT
unchanged by the second call: `self.items += 1` runs before the scan, so the
counter climbs from 1 to 2 even though the call only replaced a value. -/
theorem overwrite_increments_len :
    ((((HashMap.new : HashMap Nat Nat).insert (fun n => n) 0 1).2.insert (fun n => n) 0 2).1
        = some 1) ∧
    ((((HashMap.new : HashMap Nat Nat).insert (fun n => n) 0 1).2.insert
        (fun n => n) 0 2).2.get (fun n => n) 0 = some (some 2)) ∧
    (((HashMap.new : HashMap Nat Nat).insert (fun n => n) 0 1).2.len = 1) ∧
    ((((HashMap.new : HashMap Nat Nat).insert (fun n => n) 0 1).2.insert
        (fun n => n) 0 2).2.len = 2) := by
  decide

/-- Claim C2 (code bug): the invariant `item_count == sum of chain lengths`
holds for the empty table but is broken by `insert` on an already-present key:
after inserting `0 → 1` then `0 → 2` the counter is 2 while the chains hold a
single pair. -/
theorem items_count_invariant_violated :
    ((HashMap.new : HashMap Nat Nat).items
        = (HashMap.new : HashMap Nat Nat).buckets.flatten.length) ∧
    ((((HashMap.new : HashMap Nat Nat).insert (fun n => n) 0 1).2.insert
        (fun n => n) 0 2).2.items = 2) ∧
    ((((HashMap.new : HashMap Nat Nat).insert (fun n => n) 0 1).2.insert
        (fun n => n) 0 2).2.buckets.flatten.length = 1) := by
  decide

/-- Claim C3 (code bug): on a freshly constructed table (zero buckets, no insert
yet) `get`, `contains_key` and `remove` do not return a "nothing found" result:
`HashMap::bucket` computes `hash % 0`, which panics in Rust — modelled here by
the outer `none` (fault) layer. -/
theorem fresh_table_lookup_faults :
    ((HashMap.new : HashMap Nat Nat).get (fun n => n) 0 = none) ∧
    ((HashMap.new : HashMap Nat Nat).contains_key (fun n => n) 0 = none) ∧
    ((HashMap.new : HashMap Nat Nat).remove (fun n => n) 0 = none) := by
  decide

/-- Claim C7: `resize` sets the bucket count to 1 when it was 0 and doubles it
otherwise; every stored pair is re-placed at `hash(key) % new_bucket_count`,
and the multiset of stored pairs is preserved. Consequently, folding `insert`
over any sequence of pairs with pairwise-distinct keys (which forces resizes as
the load factor crosses 3/4) yields `len()` equal to the number of pairs and
every inserted key retrievable via `get`. -/
theorem resize_spec_bulk_insert (hash : K → Nat) :
    (∀ m : HashMap K V, (m.resize hash).buckets.length =
      if m.buckets.length = 0 then 1 else 2 * m.buckets.length) ∧
    (∀ m : HashMap K V, ∀ i chain, (m.resize hash).buckets[i]? = some chain →
      ∀ e ∈ chain, hash e.1 % (m.resize hash).buckets.length = i) ∧
    (∀ m : HashMap K V, (m.resize hash).buckets.flatten.Perm m.buckets.flatten) ∧
    (∀ ps : List (K × V), (ps.map Prod.fst).Nodup →
      (HashMap.from_iter hash ps).len = ps.length ∧
      ∀ e ∈ ps, (HashMap.from_iter hash ps).get hash e.1 = some (some e.2)) := by
  refine ⟨resize_length hash, ?_, resize_flatten_perm hash, ?_⟩
  · intro m
    exact resize_placed hash m
  · intro ps hnd
    obtain ⟨hwf, hperm⟩ := insertList_wf hash ps HashMap.new (WF_new hash)
      (by simpa [HashMap.new] using hnd)
    constructor
    · show (insertList hash HashMap.new ps).items = ps.length
      rw [hwf.1, hperm.length_eq]
      simp [HashMap.new]
    · intro e he
      have hpos : 0 < (insertList hash HashMap.new ps).buckets.length :=
        insertList_length_pos hash ps HashMap.new (by rintro rfl; simp at he)
      have hmem : (e.1, e.2) ∈ (insertList hash HashMap.new ps).buckets.flatten := by
        apply hperm.mem_iff.mpr
        simpa [HashMap.new] using he
      exact wf_get hash _ e.1 e.2 hwf hpos hmem

/-- Claim C8: a complete traversal of a fresh iterator (cursor at bucket 0,
offset 0) over an unmutated table yields exactly the concatenation of the
bucket chains in ascending bucket order and chain order — every live pair
exactly once — and the number of yielded pairs equals the number of live pairs. -/
theorem iter_complete_traversal (m : HashMap K V) (fuel : Nat)
    (hfuel : m.buckets.flatten.length ≤ fuel) :
    Iter.toList m fuel m.into_iter = m.buckets.flatten ∧
    (Iter.toList m fuel m.into_iter).length = m.buckets.flatten.length := by
  have h := iter_traversal_core m fuel hfuel
  exact ⟨h, by rw [h]⟩

/-- Claim C9: in `entry(k).or_insert_with(producer)` the producer (modelled as
a state transformer so its invocations are observable) is run exactly once on
the vacant path and never on the occupied path, and the resulting map and
returned value coincide with `or_insert` applied to the produced value. -/
theorem or_insert_with_lazy_producer {σ : Type} (hash : K → Nat) (m : HashMap K V)
    (key : K) (maker : σ → V × σ) (s : σ) :
    (Entry.or_insert_with (m.entry hash key) maker s).1 =
      Entry.or_insert (m.entry hash key) (maker s).1 ∧
    (Entry.or_insert_with (m.entry hash key) maker s).2 =
      (match (m.entry hash key).2 with
       | Entry.occupied _ => s
       | Entry.vacant _ _ => (maker s).2) := by
  rcases hME : m.entry hash key with ⟨m1, e⟩
  cases e
  · exact ⟨rfl, rfl⟩
  · exact ⟨rfl, rfl⟩

/-- Witness for C5 at a concrete input. -/
theorem insert_remove_roundtrip_witness :
    (∀ e ∈ (HashMap.new : HashMap Nat Nat).buckets.flatten, e.1 ≠ 0) ∧
    (∃ m2 : HashMap Nat Nat,
      (((HashMap.new : HashMap Nat Nat).insert (fun n => n) 0 5).2).remove (fun n => n) 0 =
        some (some 5, m2) ∧
      m2.get (fun n => n) 0 = some none ∧
      m2.len + 1 = (((HashMap.new : HashMap Nat Nat).insert (fun n => n) 0 5).2).len) :=
  ⟨by decide, insert_remove_roundtrip (fun n => n) HashMap.new 0 5 (by decide)⟩

/-- Witness for C6 at a concrete input. -/
theorem entry_or_insert_idempotent_witness :
    (∀ e ∈ (HashMap.new : HashMap Nat Nat).buckets.flatten, e.1 ≠ 0) ∧
    ((Entry.or_insert ((HashMap.new : HashMap Nat Nat).entry (fun n => n) 0) 7).2 = 7 ∧
     (Entry.or_insert ((HashMap.new : HashMap Nat Nat).entry (fun n => n) 0) 7).1.get
        (fun n => n) 0 = some (some 7) ∧
     (Entry.or_insert
        ((Entry.or_insert ((HashMap.new : HashMap Nat Nat).entry (fun n => n) 0) 7).1.entry
          (fun n => n) 0) 9).2 = 7 ∧
     (Entry.or_insert
        ((Entry.or_insert ((HashMap.new : HashMap Nat Nat).entry (fun n => n) 0) 7).1.entry
          (fun n => n) 0) 9).1.len
        = (Entry.or_insert ((HashMap.new : HashMap Nat Nat).entry (fun n => n) 0) 7).1.len ∧
     List.Perm
       (Entry.or_insert
         ((Entry.or_insert ((HashMap.new : HashMap Nat Nat).entry (fun n => n) 0) 7).1.entry
           (fun n => n) 0) 9).1.buckets.flatten
       (Entry.or_insert
         ((HashMap.new : HashMap Nat Nat).entry (fun n => n) 0) 7).1.buckets.flatten) :=
  ⟨by decide, entry_or_insert_idempotent (fun n => n) HashMap.new 0 7 9 (by decide)⟩

/-- Witness for C7 at a concrete input (five distinct keys, forcing resizes at
capacities 0, 1 and 2, and again at 4). -/
theorem resize_spec_bulk_insert_witness :
    ((([(0, 10), (1, 11), (2, 12), (3, 13), (4, 14)] : List (Nat × Nat)).map Prod.fst).Nodup) ∧
    ((HashMap.from_iter (fun n => n)
        ([(0, 10), (1, 11), (2, 12), (3, 13), (4, 14)] : List (Nat × Nat))).len = 5 ∧
     ∀ e ∈ ([(0, 10), (1, 11), (2, 12), (3, 13), (4, 14)] : List (Nat × Nat)),
       (HashMap.from_iter (fun n => n)
          ([(0, 10), (1, 11), (2, 12), (3, 13), (4, 14)] : List (Nat × Nat))).get
          (fun n => n) e.1 = some (some e.2)) :=
  ⟨by decide, (resize_spec_bulk_insert (fun n => n)).2.2.2
    ([(0, 10), (1, 11), (2, 12), (3, 13), (4, 14)] : List (Nat × Nat)) (by decide)⟩

/-- Witness for C8 at a concrete input. -/
theorem iter_complete_traversal_witness :
    ((⟨[[(0, 1)], [(1, 2)]], 2⟩ : HashMap Nat Nat).buckets.flatten.length ≤ 2) ∧
    (Iter.toList (⟨[[(0, 1)], [(1, 2)]], 2⟩ : HashMap Nat Nat) 2
        (⟨[[(0, 1)], [(1, 2)]], 2⟩ : HashMap Nat Nat).into_iter =
      (⟨[[(0, 1)], [(1, 2)]], 2⟩ : HashMap Nat Nat).buckets.flatten ∧
     (Iter.toList (⟨[[(0, 1)], [(1, 2)]], 2⟩ : HashMap Nat Nat) 2
        (⟨[[(0, 1)], [(1, 2)]], 2⟩ : HashMap Nat Nat).into_iter).length =
      (⟨[[(0, 1)], [(1, 2)]], 2⟩ : HashMap Nat Nat).buckets.flatten.length) :=
  ⟨by decide, iter_complete_traversal (⟨[[(0, 1)], [(1, 2)]], 2⟩ : HashMap Nat Nat) 2 (by decide)⟩

/-- Witness for C10 at a concrete input. -/
theorem remove_absent_noop_witness :
    ((⟨[[(1, 5)]], 1⟩ : HashMap Nat Nat).buckets ≠ []) ∧
    (∀ e ∈ (⟨[[(1, 5)]], 1⟩ : HashMap Nat Nat).buckets.flatten, e.1 ≠ 0) ∧
    ((⟨[[(1, 5)]], 1⟩ : HashMap Nat Nat).remove (fun n => n) 0 =
      some (none, (⟨[[(1, 5)]], 1⟩ : HashMap Nat Nat))) :=
  ⟨by decide, by decide,
    remove_absent_noop (fun n => n) (⟨[[(1, 5)]], 1⟩ : HashMap Nat Nat) 0
      (by decide) (by decide)⟩

end LearnHashMap
